import Mathlib

/-!
Verification development for the markdown-concatenator tool (src/index.ts).

The program has two phases:
* `findMarkdownRecursive` (Tree Scanner): recursively lists a directory,
  sorts each directory's children (directories first, then by
  `localeCompare` on names), and returns a flat pre-order list of
  `FileInfo` records for every directory and every file whose lowercased
  name ends in ".md".
* the assembly loop in `run` (Document Assembler): one linear pass over
  the `FileInfo` list, emitting directory headers, file headers, file
  bodies and separators while tracking `lastProcessedDirRelative`.

File systems are modelled as the inductive `FSEntry` tree; the delegated
read primitive `fs.readFile` is modelled as a function
`String → Option String` (`none` models a read failure).  String
primitives used by the source (`split`, `startsWith`, `endsWith`,
`toLowerCase`, `path.dirname`, `path.join`) are modelled over `.data`
character lists so that all definitions evaluate by kernel reduction.
-/

/-! ## String primitives (models of the JS / node builtins used by the source) -/

/-- Splits a character list at every occurrence of `sep`; model of
JavaScript `String.prototype.split` with a single-character separator
(`currentDirRelative.split(path.sep)` in the source). -/
def splitOnChar (sep : Char) : List Char → List (List Char)
  | [] => [[]]
  | c :: cs =>
    match splitOnChar sep cs with
    | [] => [[c]]
    | g :: gs => if c == sep then [] :: g :: gs else (c :: g) :: gs

/-- Splits a path string at the path separator. -/
def splitSlash (s : String) : List String :=
  (splitOnChar '/' s.data).map (fun l => (⟨l⟩ : String))

/-- Does the first character list start with the second one? -/
def listStarts : List Char → List Char → Bool
  | _, [] => true
  | [], _ :: _ => false
  | c :: cs, d :: ds => c == d && listStarts cs ds

/-- Model of JavaScript `String.prototype.startsWith`. -/
def strStarts (s p : String) : Bool :=
  listStarts s.data p.data

/-- Model of JavaScript `String.prototype.endsWith`. -/
def strEnds (s p : String) : Bool :=
  listStarts s.data.reverse p.data.reverse

/-- Model of JavaScript `String.prototype.toLowerCase` (ASCII range, which
is all the source relies on for the ".md" extension test). -/
def lowerStr (s : String) : String :=
  ⟨s.data.map Char.toLower⟩

/-- Model of node `path.join` restricted to the use in the source: both
arguments are nonempty normalized relative/absolute segments, except that
an empty first argument returns the second segment alone. -/
def pathJoin (a b : String) : String :=
  if a = "" then b else a ++ "/" ++ b

/-- Model of node `path.dirname` on the normalized relative paths produced
by the scanner: everything before the last separator, and "." when the
path has no separator (a root-level name). -/
def dirname (p : String) : String :=
  let parts := splitSlash p
  if parts.length ≤ 1 then "." else String.intercalate "/" parts.dropLast

/-! ## Model of `String.prototype.localeCompare` (default locale)

The source sorts sibling names with `a.name.localeCompare(b.name)`.  Under
node's default ICU root collation on ASCII strings this is a two-level
comparison: a case-insensitive primary pass, with ties broken by a case
pass in which lowercase sorts before uppercase (so "a" < "B" < "b"). -/

/-- Lexicographic comparison of lists of naturals. -/
def lexNat : List Nat → List Nat → Ordering
  | [], [] => .eq
  | [], _ :: _ => .lt
  | _ :: _, [] => .gt
  | a :: as, b :: bs =>
    match compare a b with
    | .eq => lexNat as bs
    | o => o

/-- Primary collation key: lowercased code points. -/
def primaryKey (s : String) : List Nat :=
  s.data.map (fun c => (Char.toLower c).toNat)

/-- Case (tertiary) collation key: 0 for lowercase/other, 1 for uppercase,
so lowercase sorts before uppercase on primary-equal strings. -/
def caseKey (s : String) : List Nat :=
  s.data.map (fun c => if Char.isUpper c then 1 else 0)

/-- Model of `localeCompare` under the default locale: primary pass first,
then the case pass. -/
def localeCompare (a b : String) : Ordering :=
  (lexNat (primaryKey a) (primaryKey b)).then (lexNat (caseKey a) (caseKey b))

/-! ## Model of `Array.prototype.sort` (stable, by a comparator) -/

/-- Inserts `x` into `l` before the first element `y` with `le x y`;
building block of the stable sort. -/
def insertBy (le : α → α → Bool) (x : α) : List α → List α
  | [] => [x]
  | y :: ys => if le x y then x :: y :: ys else y :: insertBy le x ys

/-- Stable insertion sort by a boolean "less or equal" test; model of
JavaScript `Array.prototype.sort` with a consistent comparator. -/
def sortBy (le : α → α → Bool) : List α → List α
  | [] => []
  | x :: xs => insertBy le x (sortBy le xs)

/-! ## The data model -/

/-- One file-system node as seen through `fs.readdir(withFileTypes)`:
a directory with its children, a regular file with its readable content
(`none` models a file whose read fails), or a dirent that is neither a
directory nor a regular file (symlink, socket, ...). -/
inductive FSEntry where
  | dir (name : String) (children : List FSEntry)
  | file (name : String) (content : Option String)
  | other (name : String)

/-- `dirent.isDirectory()`. -/
def isDirE : FSEntry → Bool
  | .dir _ _ => true
  | _ => false

/-- `dirent.isFile()` for regular files. -/
def isFileE : FSEntry → Bool
  | .file _ _ => true
  | _ => false

/-- The dirent's name. -/
def entryName : FSEntry → String
  | .dir n _ => n
  | .file n _ => n
  | .other n => n

/-- The `FileInfo` record built by the scanner (interface `FileInfo` in the
source). -/
structure FileInfo where
  fullPath : String
  relativePath : String
  isDirectory : Bool
  name : String
deriving DecidableEq

/-- The sort comparator from the source:
directories first, otherwise `localeCompare` on names. -/
def direntCmp (a b : FSEntry) : Ordering :=
  if isDirE a && !isDirE b then .lt
  else if !isDirE a && isDirE b then .gt
  else localeCompare (entryName a) (entryName b)

/-- "Sorts not after" for the comparator: the comparator does not return
a positive value. -/
def direntLe (a b : FSEntry) : Bool :=
  match direntCmp a b with
  | .gt => false
  | _ => true

/-- The sorted sibling order used for each visited directory. -/
def sortDirents (l : List FSEntry) : List FSEntry :=
  sortBy direntLe l

/-- The `FileInfo` record pushed for a directory child. -/
def mkDirInfo (dirPath relDir name : String) : FileInfo :=
  { fullPath := pathJoin dirPath name
    relativePath := pathJoin relDir name
    isDirectory := true
    name := name }

/-- The `FileInfo` record pushed for a qualifying markdown file child. -/
def mkFileInfo (dirPath relDir name : String) : FileInfo :=
  { fullPath := pathJoin dirPath name
    relativePath := pathJoin relDir name
    isDirectory := false
    name := name }

/-! ## The Tree Scanner (`findMarkdownRecursive`)

The source sorts the children of a directory and then recurses over them
in sorted order.  To keep the recursion structural, the model first
computes each child's contribution in listing order (`scanPairs`), then
sorts the (child, contribution) pairs by the comparator on the child and
flattens (`sortJoin`); `findMarkdown_eq_flatMap` below proves this equal
to sorting first and recursing in sorted order, which is literally the
source's shape, since a child's contribution depends only on the child. -/

/-- Sorts (dirent, contribution) pairs by the source's comparator on the
dirent and concatenates the contributions in sorted order. -/
def sortJoin (l : List (FSEntry × List FileInfo)) : List FileInfo :=
  ((sortBy (fun a b => direntLe a.1 b.1) l).map Prod.snd).flatten

mutual
/-- The scanner's loop body for one dirent: a directory child contributes
its own `FileInfo` followed by the recursive scan of its children; a file
child contributes its `FileInfo` iff its lowercased name ends in ".md";
any other dirent contributes nothing. -/
def scanChild (dirPath relDir : String) : FSEntry → List FileInfo
  | .dir name cs =>
    mkDirInfo dirPath relDir name ::
      sortJoin (scanPairs (pathJoin dirPath name) (pathJoin relDir name) cs)
  | .file name _ =>
    if strEnds (lowerStr name) ".md" then [mkFileInfo dirPath relDir name] else []
  | .other _ => []

/-- Pairs every child with its contribution, in listing order. -/
def scanPairs (dirPath relDir : String) : List FSEntry → List (FSEntry × List FileInfo)
  | [] => []
  | c :: cs => (c, scanChild dirPath relDir c) :: scanPairs dirPath relDir cs
end

/-- `findMarkdownRecursive(dirPath, rootDir)` from the source, with the
directory's children given by the `FSEntry` model and `relDir` standing
for `path.relative(rootDir, dirPath)` ("" at the root). -/
def findMarkdownRecursive (dirPath relDir : String) (children : List FSEntry) : List FileInfo :=
  sortJoin (scanPairs dirPath relDir children)

/-! ## The Document Assembler (the loop in `run`) -/

/-- `DIR_HEADER_PREFIX` from the source configuration. -/
def dirHeaderMark : String := "# Directory:"

/-- `FILE_HEADER_PREFIX` from the source configuration. -/
def fileHeaderMark : String := "## File:"

/-- The directory header fragment pushed for relative path `p`. -/
def dirHeaderLine (p : String) : String :=
  dirHeaderMark ++ " " ++ p ++ "\n\n"

/-- The file header fragment pushed for file name `n`. -/
def fileHeaderLine (n : String) : String :=
  fileHeaderMark ++ " " ++ n ++ "\n\n"

/-- One iteration of the ancestor-reconstruction loop: extend the
cumulative path by the next segment and emit its header unless
`lastProcessedDirRelative` (captured as `last`) starts with it. -/
def cumStep (last : String) (st : List String × String) (part : String) : List String × String :=
  let cumulativePath := if st.2 = "" then part else st.2 ++ "/" ++ part
  (if strStarts last cumulativePath then st.1 else st.1 ++ [dirHeaderLine cumulativePath],
   cumulativePath)

/-- The directory-header part of one loop iteration of `run`: state is
(`outputContent`, `lastProcessedDirRelative`).  A directory entry with a
new relative path pushes its header directly; a file entry whose parent
directory is new and not the root sentinel runs the
ancestor-reconstruction loop; anything else leaves the state unchanged. -/
def dirPhase (st : List String × String) (info : FileInfo) : List String × String :=
  let currentDirRelative := dirname info.relativePath
  if info.isDirectory = true ∧ info.relativePath ≠ st.2 then
    (st.1 ++ [dirHeaderLine info.relativePath], info.relativePath)
  else if info.isDirectory = false ∧ currentDirRelative ≠ st.2 ∧ currentDirRelative ≠ "." then
    (((splitSlash currentDirRelative).foldl (cumStep st.2) (st.1, "")).1, currentDirRelative)
  else st

/-- The fragments pushed for a file entry: the file header, then either
the file's content and the separator, or the placeholder (which carries
the same separator) when the read fails. -/
def fileLines (readFile : String → Option String) (info : FileInfo) : List String :=
  fileHeaderLine info.name ::
    (match readFile info.fullPath with
     | some content => [content, "\n\n---\n\n"]
     | none => ["*Error reading file " ++ info.name ++ "*\n\n---\n\n"])

/-- One full iteration of the assembly loop of `run`. -/
def assembleStep (readFile : String → Option String) (st : List String × String)
    (info : FileInfo) : List String × String :=
  let st1 := dirPhase st info
  if info.isDirectory = false then (st1.1 ++ fileLines readFile info, st1.2) else st1

/-- The whole assembly pass of `run`: fold the loop over the entry list
from the initial state `([], ".")` and join the buffer. -/
def assemble (readFile : String → Option String) (fileInfos : List FileInfo) : String :=
  String.join (fileInfos.foldl (assembleStep readFile) ([], ".")).1

/-- The successive values taken by `lastProcessedDirRelative` during one
assembly pass, starting with the initial root sentinel ".". -/
def stateTraceAux (readFile : String → Option String) (st : List String × String) :
    List FileInfo → List String
  | [] => []
  | info :: rest =>
    (assembleStep readFile st info).2 :: stateTraceAux readFile (assembleStep readFile st info) rest

/-- The tracker trace of a full pass (initial sentinel included). -/
def stateTrace (readFile : String → Option String) (l : List FileInfo) : List String :=
  "." :: stateTraceAux readFile ([], ".") l

/-! ## Further definitions used by the claim statements -/

/-- A dirent that is neither a directory nor a regular file. -/
def isOtherE : FSEntry → Bool
  | .other _ => true
  | _ => false

/-- The cumulative ancestor paths of a list of path segments, from
shallowest to deepest, each obtained by extending the previous one with
the next segment. -/
def chainAux : List String → String → List String
  | [], _ => []
  | p :: ps, acc =>
    let c := if acc = "" then p else acc ++ "/" ++ p
    c :: chainAux ps c

/-- All ancestor path prefixes of a parent directory path, from
shallowest to deepest ("a/b/c" yields ["a", "a/b", "a/b/c"]). -/
def ancestorChain (parent : String) : List String :=
  chainAux (splitSlash parent) ""

/-- The sibling order claimed for the scanner (amended form): directories
before files, and within one kind group the default-locale collation
order on names. -/
def sibOrder (a b : FSEntry) : Prop :=
  (isDirE a = true ∧ isDirE b = false)
    ∨ (isDirE a = isDirE b ∧ localeCompare (entryName a) (entryName b) ≠ .gt)

/-- Concrete tree for the sibling-order tie-break: two root files whose
names differ only in case class. -/
def twoFilesTree : List FSEntry :=
  [.file "B.md" (some "bee"), .file "a.md" (some "ay")]

/-- Concrete tree of the spec scenario: root file a.md and subdirectory
sub containing b.md. -/
def c3Tree : List FSEntry :=
  [.file "a.md" (some "Alpha"), .dir "sub" [.file "b.md" (some "Beta")]]

/-- Read primitive for `c3Tree` rooted at "/r". -/
def c3Read : String → Option String := fun p =>
  if p = "/r/a.md" then some "Alpha"
  else if p = "/r/sub/b.md" then some "Beta"
  else none

/-- Concrete tree for the tracker-rollback counterexample: directory a
containing subdirectory b and file x.md. -/
def c8Tree : List FSEntry :=
  [.dir "a" [.dir "b" [], .file "x.md" (some "X")]]

/-- Read primitive for `c8Tree`. -/
def c8Read : String → Option String := fun _ => some "X"

/-! ## Generic lemmas about the stable sort -/

theorem mem_insertBy (le : α → α → Bool) (x : α) (l : List α) (y : α) :
    y ∈ insertBy le x l ↔ y = x ∨ y ∈ l := by
  induction l with
  | nil => simp [insertBy]
  | cons z zs ih =>
    by_cases h : le x z = true
    · simp [insertBy, h]
    · simp only [insertBy, if_neg h, List.mem_cons, ih]
      tauto

theorem mem_sortBy (le : α → α → Bool) (l : List α) (y : α) :
    y ∈ sortBy le l ↔ y ∈ l := by
  induction l with
  | nil => simp [sortBy]
  | cons x xs ih => simp [sortBy, mem_insertBy, ih]

theorem insertBy_eq_cons (le : α → α → Bool) (x : α) (l : List α)
    (h : ∀ z ∈ l, le x z = true) : insertBy le x l = x :: l := by
  cases l with
  | nil => rfl
  | cons y ys => simp [insertBy, h y]

theorem insertBy_pairwise (le : α → α → Bool)
    (htot : ∀ a b, le a b = true ∨ le b a = true)
    (htrans : ∀ a b c, le a b = true → le b c = true → le a c = true)
    (x : α) (l : List α) (hl : l.Pairwise (le · · = true)) :
    (insertBy le x l).Pairwise (le · · = true) := by
  induction l with
  | nil => simp [insertBy]
  | cons y ys ih =>
    rw [List.pairwise_cons] at hl
    obtain ⟨hy, hys⟩ := hl
    by_cases h : le x y = true
    · simp only [insertBy, if_pos h]
      refine List.Pairwise.cons ?_ (List.Pairwise.cons hy hys)
      intro z hz
      rcases List.mem_cons.mp hz with hzy | hz
      · rw [hzy]; exact h
      · exact htrans x y z h (hy z hz)
    · simp only [insertBy, if_neg h]
      refine List.Pairwise.cons ?_ (ih hys)
      intro z hz
      rcases (mem_insertBy le x ys z).mp hz with hzx | hz
      · rw [hzx]
        rcases htot x y with hxy | hyx
        · exact absurd hxy h
        · exact hyx
      · exact hy z hz

theorem sortBy_pairwise (le : α → α → Bool)
    (htot : ∀ a b, le a b = true ∨ le b a = true)
    (htrans : ∀ a b c, le a b = true → le b c = true → le a c = true)
    (l : List α) : (sortBy le l).Pairwise (le · · = true) := by
  induction l with
  | nil => simp [sortBy]
  | cons x xs ih => exact insertBy_pairwise le htot htrans x (sortBy le xs) ih

theorem filter_insertBy (le : α → α → Bool)
    (htrans : ∀ a b c, le a b = true → le b c = true → le a c = true)
    (p : α → Bool) (x : α) (l : List α) (hl : l.Pairwise (le · · = true)) :
    (insertBy le x l).filter p
      = if p x then insertBy le x (l.filter p) else l.filter p := by
  induction l with
  | nil =>
    by_cases h : p x = true <;> simp [insertBy, h, List.filter]
  | cons y ys ih =>
    rw [List.pairwise_cons] at hl
    obtain ⟨hy, hys⟩ := hl
    by_cases hxy : le x y = true
    · simp only [insertBy, if_pos hxy]
      by_cases hpx : p x = true
      · by_cases hpy : p y = true
        · simp [List.filter_cons, hpx, hpy, insertBy, hxy]
        · simp only [List.filter_cons, hpx, hpy, if_pos, if_neg, Bool.false_eq_true,
            reduceIte]
          rw [insertBy_eq_cons le x (ys.filter p)]
          intro z hz
          exact htrans x y z hxy (hy z (List.mem_of_mem_filter hz))
      · by_cases hpy : p y = true <;>
          simp [List.filter_cons, hpx, hpy]
    · simp only [insertBy, if_neg hxy]
      by_cases hpx : p x = true
      · by_cases hpy : p y = true
        · simp [List.filter_cons, hpx, hpy, ih hys, insertBy, hxy]
        · simp [List.filter_cons, hpx, hpy, ih hys]
      · by_cases hpy : p y = true
        · simp [List.filter_cons, hpx, hpy, ih hys]
        · simp [List.filter_cons, hpx, hpy, ih hys]

theorem filter_sortBy (le : α → α → Bool)
    (htot : ∀ a b, le a b = true ∨ le b a = true)
    (htrans : ∀ a b c, le a b = true → le b c = true → le a c = true)
    (p : α → Bool) (l : List α) :
    (sortBy le l).filter p = sortBy le (l.filter p) := by
  induction l with
  | nil => simp [sortBy]
  | cons x xs ih =>
    simp only [sortBy]
    rw [filter_insertBy le htrans p x (sortBy le xs) (sortBy_pairwise le htot htrans xs), ih]
    by_cases hpx : p x = true
    · simp [List.filter_cons, hpx, sortBy]
    · simp [List.filter_cons, hpx, sortBy]

theorem insertBy_map_pair (le : α → α → Bool) (f : α → β) (x : α) (l : List α) :
    insertBy (fun a b => le a.1 b.1) (x, f x) (l.map (fun c => (c, f c)))
      = (insertBy le x l).map (fun c => (c, f c)) := by
  induction l with
  | nil => rfl
  | cons y ys ih =>
    by_cases h : le x y = true
    · simp [insertBy, h]
    · simp [insertBy, h, ih]

theorem sortBy_map_pair (le : α → α → Bool) (f : α → β) (l : List α) :
    sortBy (fun a b => le a.1 b.1) (l.map (fun c => (c, f c)))
      = (sortBy le l).map (fun c => (c, f c)) := by
  induction l with
  | nil => rfl
  | cons x xs ih => simp only [List.map_cons, sortBy, ih, insertBy_map_pair]

/-! ## Order theory for the comparator -/

theorem lexNat_eq_iff : ∀ a b : List Nat, lexNat a b = .eq ↔ a = b := by
  intro a
  induction a with
  | nil =>
    intro b
    cases b <;> simp [lexNat]
  | cons x xs ih =>
    intro b
    cases b with
    | nil => simp [lexNat]
    | cons y ys =>
      rcases h : compare x y with hc | hc | hc
      · have hxy : x < y := Nat.compare_eq_lt.mp h
        simp only [lexNat, h]
        constructor
        · intro hcontra
          exact absurd hcontra (by simp)
        · intro hcontra
          have : x = y := by injection hcontra
          omega
      · have hxy : x = y := Nat.compare_eq_eq.mp h
        subst hxy
        simp [lexNat, h, ih]
      · have hxy : y < x := Nat.compare_eq_gt.mp h
        simp only [lexNat, h]
        constructor
        · intro hcontra
          exact absurd hcontra (by simp)
        · intro hcontra
          have : x = y := by injection hcontra
          omega

theorem lexNat_gt_iff : ∀ a b : List Nat, lexNat a b = .gt ↔ lexNat b a = .lt := by
  intro a
  induction a with
  | nil =>
    intro b
    cases b <;> simp [lexNat]
  | cons x xs ih =>
    intro b
    cases b with
    | nil => simp [lexNat]
    | cons y ys =>
      rcases h : compare x y with hc | hc | hc
      · have hyx : compare y x = .gt := Nat.compare_eq_gt.mpr (Nat.compare_eq_lt.mp h)
        simp [lexNat, h, hyx]
      · have hxy : x = y := Nat.compare_eq_eq.mp h
        have hyx : compare y x = .eq := Nat.compare_eq_eq.mpr hxy.symm
        simp [lexNat, h, hyx, ih]
      · have hyx : compare y x = .lt := Nat.compare_eq_lt.mpr (Nat.compare_eq_gt.mp h)
        simp [lexNat, h, hyx]

theorem lexNat_lt_trans : ∀ a b c : List Nat,
    lexNat a b = .lt → lexNat b c = .lt → lexNat a c = .lt := by
  intro a
  induction a with
  | nil =>
    intro b c hab hbc
    cases b with
    | nil => exact absurd hab (by simp [lexNat])
    | cons y ys =>
      cases c with
      | nil => exact absurd hbc (by simp [lexNat])
      | cons z zs => simp [lexNat]
  | cons x xs ih =>
    intro b c hab hbc
    cases b with
    | nil => exact absurd hab (by simp [lexNat])
    | cons y ys =>
      cases c with
      | nil => exact absurd hbc (by simp [lexNat])
      | cons z zs =>
        rcases hxy : compare x y with h1 | h1 | h1 <;>
          rcases hyz : compare y z with h2 | h2 | h2 <;>
            simp only [lexNat, hxy, hyz] at hab hbc ⊢
        · have : x < y := Nat.compare_eq_lt.mp hxy
          have : y < z := Nat.compare_eq_lt.mp hyz
          have hxz : compare x z = .lt := Nat.compare_eq_lt.mpr (by omega)
          simp [hxz]
        · have hy : y = z := Nat.compare_eq_eq.mp hyz
          have : x < y := Nat.compare_eq_lt.mp hxy
          have hxz : compare x z = .lt := Nat.compare_eq_lt.mpr (by omega)
          simp [hxz]
        · exact absurd hbc (by simp)
        · have hx : x = y := Nat.compare_eq_eq.mp hxy
          have : y < z := Nat.compare_eq_lt.mp hyz
          have hxz : compare x z = .lt := Nat.compare_eq_lt.mpr (by omega)
          simp [hxz]
        · have hx : x = y := Nat.compare_eq_eq.mp hxy
          have hy : y = z := Nat.compare_eq_eq.mp hyz
          have hxz : compare x z = .eq := Nat.compare_eq_eq.mpr (by omega)
          simp only [hxz]
          exact ih ys zs hab hbc
        · exact absurd hbc (by simp)
        · exact absurd hab (by simp)
        · exact absurd hab (by simp)
        · exact absurd hab (by simp)

theorem lexNat_le_trans {a b c : List Nat}
    (hab : lexNat a b ≠ .gt) (hbc : lexNat b c ≠ .gt) : lexNat a c ≠ .gt := by
  rcases h1 : lexNat a b with h | h | h
  · rcases h2 : lexNat b c with g | g | g
    · have := lexNat_lt_trans a b c h1 h2
      simp [this]
    · have hb : b = c := (lexNat_eq_iff b c).mp h2
      rw [← hb]
      simp [h1]
    · exact absurd h2 hbc
  · have hb : a = b := (lexNat_eq_iff a b).mp h1
    rw [hb]
    exact hbc
  · exact absurd h1 hab

theorem localeCompare_gt_iff (a b : String) :
    localeCompare a b = .gt ↔ localeCompare b a = .lt := by
  unfold localeCompare
  rcases h : lexNat (primaryKey a) (primaryKey b) with hc | hc | hc
  · have : lexNat (primaryKey b) (primaryKey a) = .gt := (lexNat_gt_iff _ _).mpr h
    simp [Ordering.then, h, this]
  · have heq : primaryKey a = primaryKey b := (lexNat_eq_iff _ _).mp h
    have : lexNat (primaryKey b) (primaryKey a) = .eq := (lexNat_eq_iff _ _).mpr heq.symm
    simp only [Ordering.then, h, this]
    exact lexNat_gt_iff _ _
  · have : lexNat (primaryKey b) (primaryKey a) = .lt := (lexNat_gt_iff _ _).mp h
    simp [Ordering.then, h, this]

theorem localeCompare_le_trans {a b c : String}
    (hab : localeCompare a b ≠ .gt) (hbc : localeCompare b c ≠ .gt) :
    localeCompare a c ≠ .gt := by
  unfold localeCompare at *
  rcases h1 : lexNat (primaryKey a) (primaryKey b) with g1 | g1 | g1 <;>
    rcases h2 : lexNat (primaryKey b) (primaryKey c) with g2 | g2 | g2
  · have hac := lexNat_lt_trans _ _ _ h1 h2
    simp [Ordering.then, hac]
  · have heq : primaryKey b = primaryKey c := (lexNat_eq_iff _ _).mp h2
    rw [← heq]
    simp [Ordering.then, h1]
  · rw [h2] at hbc
    simp [Ordering.then] at hbc
  · have heq : primaryKey a = primaryKey b := (lexNat_eq_iff _ _).mp h1
    rw [heq]
    simp [Ordering.then, h2]
  · have heq1 : primaryKey a = primaryKey b := (lexNat_eq_iff _ _).mp h1
    have heq2 : primaryKey b = primaryKey c := (lexNat_eq_iff _ _).mp h2
    have hac : lexNat (primaryKey a) (primaryKey c) = .eq :=
      (lexNat_eq_iff _ _).mpr (heq1.trans heq2)
    rw [h1] at hab
    rw [h2] at hbc
    simp only [Ordering.then, hac]
    simp only [Ordering.then] at hab hbc
    exact lexNat_le_trans hab hbc
  · rw [h2] at hbc
    simp [Ordering.then] at hbc
  · rw [h1] at hab
    simp [Ordering.then] at hab
  · rw [h1] at hab
    simp [Ordering.then] at hab
  · rw [h1] at hab
    simp [Ordering.then] at hab

theorem direntLe_eq_true_iff (a b : FSEntry) :
    direntLe a b = true ↔ direntCmp a b ≠ .gt := by
  unfold direntLe
  rcases h : direntCmp a b with hc | hc | hc <;> simp [h]

theorem direntLe_total (a b : FSEntry) : direntLe a b = true ∨ direntLe b a = true := by
  rw [direntLe_eq_true_iff, direntLe_eq_true_iff]
  unfold direntCmp
  rcases hda : isDirE a <;> rcases hdb : isDirE b <;> simp only [Bool.not_true, Bool.not_false,
    Bool.true_and, Bool.false_and, Bool.and_true, Bool.and_false, if_true, if_false] <;>
      try simp
  · by_cases h : localeCompare (entryName a) (entryName b) = .gt
    · right
      have := (localeCompare_gt_iff _ _).mp h
      simp [this]
    · left
      exact h
  · by_cases h : localeCompare (entryName a) (entryName b) = .gt
    · right
      have := (localeCompare_gt_iff _ _).mp h
      simp [this]
    · left
      exact h

theorem direntLe_trans (a b c : FSEntry)
    (hab : direntLe a b = true) (hbc : direntLe b c = true) : direntLe a c = true := by
  rw [direntLe_eq_true_iff] at *
  unfold direntCmp at *
  rcases hda : isDirE a <;> rcases hdb : isDirE b <;> rcases hdc : isDirE c <;>
    simp only [hda, hdb, hdc] at hab hbc ⊢ <;>
      simp at hab hbc ⊢ <;>
        exact localeCompare_le_trans hab hbc

/-! ## Structure lemmas about the scanner -/

theorem scanPairs_eq_map (dp rd : String) (l : List FSEntry) :
    scanPairs dp rd l = l.map (fun c => (c, scanChild dp rd c)) := by
  induction l with
  | nil => rfl
  | cons c cs ih => simp only [scanPairs, ih, List.map_cons]

/-- The scanner's published shape: sort the children by the source's
comparator, then concatenate each child's contribution in sorted order.
This is literally the loop of `findMarkdownRecursive` in the source. -/
theorem findMarkdown_eq_flatMap (dp rd : String) (children : List FSEntry) :
    findMarkdownRecursive dp rd children
      = (sortDirents children).flatMap (scanChild dp rd) := by
  unfold findMarkdownRecursive sortJoin sortDirents
  rw [scanPairs_eq_map, sortBy_map_pair, List.map_map]
  rw [show (Prod.snd ∘ fun c => (c, scanChild dp rd c)) = scanChild dp rd from rfl]
  rfl

theorem scanChild_dir_eq (dp rd name : String) (cs : List FSEntry) :
    scanChild dp rd (.dir name cs)
      = mkDirInfo dp rd name
          :: findMarkdownRecursive (pathJoin dp name) (pathJoin rd name) cs := rfl

theorem scanChild_file_eq (dp rd name : String) (cont : Option String) :
    scanChild dp rd (.file name cont)
      = if strEnds (lowerStr name) ".md" then [mkFileInfo dp rd name] else [] := rfl

theorem scanChild_other_eq (dp rd name : String) :
    scanChild dp rd (.other name) = [] := rfl

theorem mem_sortJoin (l : List (FSEntry × List FileInfo)) (info : FileInfo) :
    info ∈ sortJoin l ↔ ∃ pr ∈ l, info ∈ pr.2 := by
  unfold sortJoin
  simp only [List.mem_flatten, List.mem_map]
  constructor
  · rintro ⟨m, ⟨pr, hpr, hsnd⟩, hinfo⟩
    exact ⟨pr, (mem_sortBy _ _ _).mp hpr, hsnd ▸ hinfo⟩
  · rintro ⟨pr, hpr, hinfo⟩
    exact ⟨pr.2, ⟨pr, (mem_sortBy _ _ _).mpr hpr, rfl⟩, hinfo⟩

theorem mem_findMarkdown_of_child (dp rd : String) (c : FSEntry)
    (children : List FSEntry) (hc : c ∈ children) (info : FileInfo)
    (hi : info ∈ scanChild dp rd c) :
    info ∈ findMarkdownRecursive dp rd children := by
  rw [findMarkdown_eq_flatMap]
  exact List.mem_flatMap.mpr ⟨c, (mem_sortBy _ _ _).mpr hc, hi⟩

mutual
/-- Every document record contributed by one dirent has a name whose
lowercased form ends in ".md". -/
theorem scanChild_docs_md (dp rd : String) (e : FSEntry) (info : FileInfo)
    (h : info ∈ scanChild dp rd e) (hf : info.isDirectory = false) :
    strEnds (lowerStr info.name) ".md" = true := by
  match e with
  | .dir name cs =>
    rw [scanChild_dir_eq] at h
    rcases List.mem_cons.mp h with heq | hmem
    · rw [heq] at hf
      simp [mkDirInfo] at hf
    · unfold findMarkdownRecursive at hmem
      obtain ⟨pr, hpr, hin⟩ := (mem_sortJoin _ _).mp hmem
      exact scanPairs_docs_md _ _ cs pr hpr info hin hf
  | .file name cont =>
    rw [scanChild_file_eq] at h
    by_cases hq : strEnds (lowerStr name) ".md" = true
    · rw [if_pos hq] at h
      have : info = mkFileInfo dp rd name := List.mem_singleton.mp h
      rw [this]
      exact hq
    · rw [if_neg hq] at h
      simp at h
  | .other name =>
    rw [scanChild_other_eq] at h
    simp at h

/-- List form of `scanChild_docs_md` over the pairs produced by
`scanPairs`. -/
theorem scanPairs_docs_md (dp rd : String) (l : List FSEntry)
    (pr : FSEntry × List FileInfo) (hpr : pr ∈ scanPairs dp rd l)
    (info : FileInfo) (h : info ∈ pr.2) (hf : info.isDirectory = false) :
    strEnds (lowerStr info.name) ".md" = true := by
  match l with
  | [] => simp [scanPairs] at hpr
  | c :: cs =>
    simp only [scanPairs, List.mem_cons] at hpr
    rcases hpr with heq | hpr2
    · refine scanChild_docs_md dp rd c info ?_ hf
      have : pr.2 = scanChild dp rd c := by rw [heq]
      rw [← this]
      exact h
    · exact scanPairs_docs_md dp rd cs pr hpr2 info h hf
end

/-- Every document record anywhere in a scan has a qualifying name. -/
theorem findMarkdown_docs_md (dp rd : String) (children : List FSEntry)
    (info : FileInfo) (h : info ∈ findMarkdownRecursive dp rd children)
    (hf : info.isDirectory = false) :
    strEnds (lowerStr info.name) ".md" = true := by
  rw [findMarkdown_eq_flatMap] at h
  obtain ⟨c, hc, hin⟩ := List.mem_flatMap.mp h
  exact scanChild_docs_md dp rd c info hin hf

theorem flatMap_filter_of_nil {α β : Type _} (f : α → List β) (p : α → Bool)
    (l : List α) (h : ∀ x ∈ l, p x = false → f x = []) :
    l.flatMap f = (l.filter p).flatMap f := by
  induction l with
  | nil => rfl
  | cons x xs ih =>
    by_cases hp : p x = true
    · simp only [List.flatMap_cons, List.filter_cons, hp, if_pos, List.flatMap_cons]
      rw [ih (fun y hy => h y (List.mem_cons_of_mem x hy))]
    · have hx : f x = [] := h x (List.mem_cons_self x xs) (Bool.not_eq_true _ ▸ hp)
      have hp2 : p x = false := Bool.not_eq_true _ ▸ hp
      simp only [List.flatMap_cons, List.filter_cons, hp2, hx, List.nil_append,
        Bool.false_eq_true, if_neg]
      exact ih (fun y hy => h y (List.mem_cons_of_mem x hy))

/-! ## Step lemmas about the assembler -/

/-- The ancestor-reconstruction loop equals a filter over the ancestor
chain: a header is emitted exactly for those cumulative prefixes that
`lastProcessedDirRelative` does not start with, in chain order. -/
theorem foldl_cumStep (last : String) (parts : List String) :
    ∀ (out : List String) (acc : String),
      (parts.foldl (cumStep last) (out, acc)).1
        = out ++ ((chainAux parts acc).filter
            (fun p => !(strStarts last p))).map dirHeaderLine := by
  induction parts with
  | nil =>
    intro out acc
    simp [chainAux]
  | cons p ps ih =>
    intro out acc
    simp only [List.foldl_cons, chainAux]
    by_cases h : strStarts last (if acc = "" then p else acc ++ "/" ++ p) = true
    · simp only [cumStep, h, if_pos]
      rw [ih]
      simp [List.filter_cons, h]
    · have h2 : strStarts last (if acc = "" then p else acc ++ "/" ++ p) = false :=
        Bool.not_eq_true _ ▸ h
      simp only [cumStep, h2, Bool.false_eq_true, if_neg]
      rw [ih]
      simp [List.filter_cons, h2]

theorem assembleStep_dir_new (rf : String → Option String) (st : List String × String)
    (info : FileInfo) (hd : info.isDirectory = true) (hne : info.relativePath ≠ st.2) :
    assembleStep rf st info
      = (st.1 ++ [dirHeaderLine info.relativePath], info.relativePath) := by
  unfold assembleStep dirPhase
  rw [hd]
  simp [hne]

theorem assembleStep_dir_same (rf : String → Option String) (st : List String × String)
    (info : FileInfo) (hd : info.isDirectory = true) (heq : info.relativePath = st.2) :
    assembleStep rf st info = st := by
  unfold assembleStep dirPhase
  rw [hd, heq]
  simp

theorem assembleStep_file_nohdr (rf : String → Option String) (st : List String × String)
    (info : FileInfo) (hf : info.isDirectory = false)
    (h : dirname info.relativePath = st.2 ∨ dirname info.relativePath = ".") :
    assembleStep rf st info = (st.1 ++ fileLines rf info, st.2) := by
  unfold assembleStep dirPhase
  rw [hf]
  rcases h with h | h
  · rw [h]
    simp
  · rw [h]
    simp

theorem assembleStep_file_reconcile (rf : String → Option String)
    (st : List String × String) (info : FileInfo) (hf : info.isDirectory = false)
    (hne : dirname info.relativePath ≠ st.2) (hnr : dirname info.relativePath ≠ ".") :
    assembleStep rf st info
      = (st.1
          ++ ((ancestorChain (dirname info.relativePath)).filter
                (fun p => !(strStarts st.2 p))).map dirHeaderLine
          ++ fileLines rf info,
         dirname info.relativePath) := by
  have hstep : assembleStep rf st info
      = ((List.foldl (cumStep st.2) (st.1, "")
            (splitSlash (dirname info.relativePath))).1 ++ fileLines rf info,
         dirname info.relativePath) := by
    unfold assembleStep dirPhase
    rw [hf]
    simp [hne, hnr]
  rw [hstep, foldl_cumStep]
  unfold ancestorChain
  rw [List.append_assoc]

/-! ## The claims -/

/-- C1: for a Document entry whose parent directory differs from
`lastProcessedDirRelative` and is not the root sentinel ".", the
assembler splits the parent into segments, reconstructs every cumulative
ancestor path from shallowest to deepest, emits a directory header for
each one unless the current `lastProcessedDirRelative` starts with it as
a textual string, and afterwards sets `lastProcessedDirRelative` to the
parent directory (whether or not any header was emitted). -/
theorem claim1_reconciliation_loop (rf : String → Option String)
    (out : List String) (last : String) (info : FileInfo)
    (hdoc : info.isDirectory = false)
    (hne : dirname info.relativePath ≠ last)
    (hroot : dirname info.relativePath ≠ ".") :
    assembleStep rf (out, last) info
      = (out
          ++ ((ancestorChain (dirname info.relativePath)).filter
                (fun p => !(strStarts last p))).map dirHeaderLine
          ++ fileLines rf info,
        dirname info.relativePath) :=
  assembleStep_file_reconcile rf (out, last) info hdoc hne hroot

/-- Witness for C1: a document at a/b/x.md processed while the tracker
holds "q" emits headers for both "a" and "a/b" and moves the tracker to
"a/b". -/
theorem claim1_reconciliation_loop_witness :
    assembleStep (fun _ => none) ([], "q") ⟨"/r/a/b/x.md", "a/b/x.md", false, "x.md"⟩
      = (["# Directory: a\n\n", "# Directory: a/b\n\n", "## File: x.md\n\n",
          "*Error reading file x.md*\n\n---\n\n"], "a/b") := by
  have h := claim1_reconciliation_loop (fun _ => none) [] "q"
    ⟨"/r/a/b/x.md", "a/b/x.md", false, "x.md"⟩ rfl (by decide) (by decide)
  rw [h]
  decide

/-- C2 counterexample: the source comparator is `localeCompare`, under
which the lowercase-named "a.md" sorts before the uppercase-named "B.md";
the claimed case-sensitive code-point order (with "B" before "a") does
not hold for the scanner output. -/
theorem claim2_counterexample :
    (findMarkdownRecursive "/r" "" twoFilesTree).map FileInfo.name = ["a.md", "B.md"]
    ∧ (findMarkdownRecursive "/r" "" twoFilesTree).map FileInfo.name ≠ ["B.md", "a.md"] := by
  constructor
  · decide
  · decide

/-- C2 amended: for every directory visited by the scanner, the children
are processed in the order `sortDirents`, in which every Directory-kind
sibling precedes every Document-kind sibling and same-kind siblings are
ordered by the default-locale collation `localeCompare` (so "a" sorts
before "B"). -/
theorem claim2_sibling_order (dirPath relDir : String) (children : List FSEntry) :
    (sortDirents children).Pairwise sibOrder
    ∧ findMarkdownRecursive dirPath relDir children
        = (sortDirents children).flatMap (scanChild dirPath relDir) := by
  constructor
  · have hp := sortBy_pairwise direntLe direntLe_total direntLe_trans children
    refine hp.imp ?_
    intro a b hab
    rw [direntLe_eq_true_iff] at hab
    unfold direntCmp at hab
    unfold sibOrder
    rcases hda : isDirE a <;> rcases hdb : isDirE b <;>
      simp only [hda, hdb] at hab ⊢ <;> simp at hab ⊢ <;>
        exact hab
  · exact findMarkdown_eq_flatMap dirPath relDir children

/-- C3 counterexample: on the tree with root file a.md and subdirectory
sub containing b.md, the output does not start with a.md's block; the
scanner sorts directories before files, so sub's block comes first. -/
theorem claim3_counterexample :
    assemble c3Read (findMarkdownRecursive "/r" "" c3Tree)
      ≠ "## File: a.md\n\nAlpha\n\n---\n\n# Directory: sub\n\n## File: b.md\n\nBeta\n\n---\n\n" := by
  decide

/-- C3 amended: on that tree the assembled output is, in order, the
directory header for sub, the file header for b.md, its body and a
separator, then the file header for a.md, its body and a separator — the
subdirectory's output precedes the root-level file's. -/
theorem claim3_amended :
    assemble c3Read (findMarkdownRecursive "/r" "" c3Tree)
      = "# Directory: sub\n\n## File: b.md\n\nBeta\n\n---\n\n## File: a.md\n\nAlpha\n\n---\n\n" := by
  decide

/-- C4 counterexample: a directory with no qualifying document in its
subtree does contribute a directory header — the assembler emits one for
every Directory entry whose path differs from the tracker, so a lone
empty directory yields exactly its header rather than empty output. -/
theorem claim4_counterexample :
    assemble (fun _ => none) (findMarkdownRecursive "/r" "" [.dir "empty" []])
      = "# Directory: empty\n\n"
    ∧ assemble (fun _ => none) (findMarkdownRecursive "/r" "" [.dir "empty" []]) ≠ "" := by
  constructor
  · decide
  · decide

/-- C4 amended: a directory child (in particular one containing no
qualifying document anywhere) still appears as a Directory entry in the
scanner's list, and when the assembler processes that entry while the
tracker differs from its relative path it DOES contribute a directory
header — and nothing else (no file header, body or separator). -/
theorem claim4_amended (dirPath relDir name : String) (cs children : List FSEntry)
    (hc : FSEntry.dir name cs ∈ children) :
    mkDirInfo dirPath relDir name ∈ findMarkdownRecursive dirPath relDir children
    ∧ ∀ (rf : String → Option String) (out : List String) (last : String),
        last ≠ pathJoin relDir name →
        assembleStep rf (out, last) (mkDirInfo dirPath relDir name)
          = (out ++ [dirHeaderLine (pathJoin relDir name)], pathJoin relDir name) := by
  constructor
  · refine mem_findMarkdown_of_child dirPath relDir _ children hc _ ?_
    rw [scanChild_dir_eq]
    exact List.mem_cons_self _ _
  · intro rf out last hlast
    exact assembleStep_dir_new rf (out, last) (mkDirInfo dirPath relDir name) rfl
      (fun h => hlast h.symm)

/-- Witness for C4 amended at a concrete empty directory. -/
theorem claim4_amended_witness :
    mkDirInfo "/r" "" "lone" ∈ findMarkdownRecursive "/r" "" [.dir "lone" []]
    ∧ assembleStep (fun _ => none) ([], ".") (mkDirInfo "/r" "" "lone")
        = (["# Directory: lone\n\n"], "lone") := by
  have h := claim4_amended "/r" "" "lone" [] [.dir "lone" []] (List.mem_singleton.mpr rfl)
  refine ⟨h.1, ?_⟩
  have h2 := h.2 (fun _ => none) [] "." (by decide)
  rw [h2]
  decide

/-- C5: the scanner's list is a pre-order depth-first traversal — for any
directory child at any position of the sorted sibling list, the whole
output is the earlier siblings' contributions, then the directory's own
entry immediately followed by its full (contiguous) subtree, then the
later siblings' contributions. -/
theorem claim5_preorder (dirPath relDir : String) (children l₁ l₂ cs : List FSEntry)
    (name : String)
    (hsplit : sortDirents children = l₁ ++ FSEntry.dir name cs :: l₂) :
    findMarkdownRecursive dirPath relDir children
      = l₁.flatMap (scanChild dirPath relDir)
        ++ (mkDirInfo dirPath relDir name
              :: findMarkdownRecursive (pathJoin dirPath name) (pathJoin relDir name) cs)
        ++ l₂.flatMap (scanChild dirPath relDir) := by
  rw [findMarkdown_eq_flatMap, hsplit, List.flatMap_append, List.flatMap_cons,
    scanChild_dir_eq]
  simp [List.append_assoc]

/-- Witness for C5 on a concrete two-sibling tree. -/
theorem claim5_preorder_witness :
    findMarkdownRecursive "/r" "" [.dir "d" [.file "n.md" (some "N")], .file "z.md" (some "Z")]
      = ([] : List FSEntry).flatMap (scanChild "/r" "")
        ++ (mkDirInfo "/r" "" "d"
              :: findMarkdownRecursive (pathJoin "/r" "d") (pathJoin "" "d")
                  [.file "n.md" (some "N")])
        ++ [FSEntry.file "z.md" (some "Z")].flatMap (scanChild "/r" "") :=
  claim5_preorder "/r" "" [.dir "d" [.file "n.md" (some "N")], .file "z.md" (some "Z")]
    [] [.file "z.md" (some "Z")] [.file "n.md" (some "N")] "d" rfl

/-- C6: a file child becomes a Document entry iff its lowercased name
ends in ".md"; conversely every Document entry anywhere in the scan has
such a name, so non-qualifying files contribute no entry (and hence no
output and no error). -/
theorem claim6_md_filter (dirPath relDir : String) (children : List FSEntry) :
    (∀ info ∈ findMarkdownRecursive dirPath relDir children,
        info.isDirectory = false → strEnds (lowerStr info.name) ".md" = true)
    ∧ ∀ (name : String) (cont : Option String), FSEntry.file name cont ∈ children →
        (strEnds (lowerStr name) ".md" = true ↔
          ∃ info ∈ findMarkdownRecursive dirPath relDir children,
            info.isDirectory = false ∧ info.name = name) := by
  constructor
  · intro info h hf
    exact findMarkdown_docs_md dirPath relDir children info h hf
  · intro name cont hc
    constructor
    · intro hq
      refine ⟨mkFileInfo dirPath relDir name, ?_, rfl, rfl⟩
      refine mem_findMarkdown_of_child dirPath relDir _ children hc _ ?_
      rw [scanChild_file_eq, if_pos hq]
      exact List.mem_singleton.mpr rfl
    · rintro ⟨info, hmem, hf, hname⟩
      rw [← hname]
      exact findMarkdown_docs_md dirPath relDir children info hmem hf

/-- Witness for C6: a file whose extension qualifies only
case-insensitively is listed as a Document entry. -/
theorem claim6_md_filter_witness :
    ∃ info ∈ findMarkdownRecursive "/r" "" [.file "Note.MD" (some "hi")],
      info.isDirectory = false ∧ info.name = "Note.MD" := by
  have h := (claim6_md_filter "/r" "" [.file "Note.MD" (some "hi")]).2 "Note.MD" (some "hi")
    (List.mem_singleton.mpr rfl)
  exact h.mp (by decide)

/-- C7: for EVERY Document entry whose content read fails — whatever the
tracker state, so after any directory headers the header phase emits —
the run does not abort: the file header has already been appended, then
the placeholder line naming the file, which carries the same
"\n\n---\n\n" separator appended after a successful read; the fold
simply continues with the remaining entries from the header phase's
tracker and still produces the output document. -/
theorem claim7_read_failure (rf : String → Option String) (st : List String × String)
    (info : FileInfo) (rest : List FileInfo)
    (hdoc : info.isDirectory = false)
    (hfail : rf info.fullPath = none) :
    List.foldl (assembleStep rf) st (info :: rest)
      = List.foldl (assembleStep rf)
          ((dirPhase st info).1
            ++ [fileHeaderLine info.name,
              "*Error reading file " ++ info.name ++ "*\n\n---\n\n"],
           (dirPhase st info).2) rest := by
  rw [List.foldl_cons]
  have hstep : assembleStep rf st info
      = ((dirPhase st info).1 ++ fileLines rf info, (dirPhase st info).2) := by
    unfold assembleStep
    rw [hdoc]
    simp
  rw [hstep]
  unfold fileLines
  rw [hfail]

/-- Witness for C7 with the tracker away from the document's parent:
x.md in a/ read while the tracker holds "a/b" fails, the header phase
moves the tracker back to "a" without emitting a header, the file header
and the placeholder are appended, and the pass continues with the next
entry. -/
theorem claim7_read_failure_witness :
    List.foldl (assembleStep (fun _ => none)) ([], "a/b")
        [⟨"/r/a/x.md", "a/x.md", false, "x.md"⟩, ⟨"/r/y.md", "y.md", false, "y.md"⟩]
      = List.foldl (assembleStep (fun _ => none))
          (["## File: x.md\n\n", "*Error reading file x.md*\n\n---\n\n"], "a")
          [⟨"/r/y.md", "y.md", false, "y.md"⟩] := by
  have h := claim7_read_failure (fun _ => none) ([], "a/b")
    ⟨"/r/a/x.md", "a/x.md", false, "x.md"⟩ [⟨"/r/y.md", "y.md", false, "y.md"⟩]
    rfl rfl
  rw [h]
  decide

/-- C8 counterexample: the tracker does get rolled back to an earlier
value.  On the tree a/{b/, x.md} the trace of `lastProcessedDirRelative`
is [".", "a", "a/b", "a"]: after advancing to "a/b" it returns to the
earlier value "a" when x.md is reconciled, so the transitions are not
monotone advances. -/
theorem claim8_counterexample :
    stateTrace c8Read (findMarkdownRecursive "/r" "" c8Tree) = [".", "a", "a/b", "a"]
    ∧ (stateTrace c8Read (findMarkdownRecursive "/r" "" c8Tree)).getD 3 ""
        = (stateTrace c8Read (findMarkdownRecursive "/r" "" c8Tree)).getD 1 ""
    ∧ (stateTrace c8Read (findMarkdownRecursive "/r" "" c8Tree)).getD 1 ""
        ≠ (stateTrace c8Read (findMarkdownRecursive "/r" "" c8Tree)).getD 2 "" := by
  refine ⟨by decide, by decide, by decide⟩

/-- C8 amended: the tracker starts at the root sentinel "." and every
transition either leaves it unchanged, sets it directly to a Directory
entry's relative path, or sets it via reconciliation to a Document
entry's parent directory, which is never the root sentinel; it is not,
however, monotone — it can return to an earlier value (see the
counterexample). -/
theorem claim8_amended (rf : String → Option String) (st : List String × String)
    (info : FileInfo) :
    (assembleStep rf st info).2 = st.2
    ∨ (info.isDirectory = true ∧ (assembleStep rf st info).2 = info.relativePath)
    ∨ (info.isDirectory = false ∧ (assembleStep rf st info).2 = dirname info.relativePath
        ∧ dirname info.relativePath ≠ ".") := by
  by_cases hd : info.isDirectory = true
  · by_cases hne : info.relativePath = st.2
    · left
      rw [assembleStep_dir_same rf st info hd hne]
    · right; left
      exact ⟨hd, by rw [assembleStep_dir_new rf st info hd hne]⟩
  · have hf : info.isDirectory = false := by
      revert hd
      cases info.isDirectory <;> simp
    by_cases hne : dirname info.relativePath = st.2
    · left
      rw [assembleStep_file_nohdr rf st info hf (Or.inl hne)]
    · by_cases hnr : dirname info.relativePath = "."
      · left
        rw [assembleStep_file_nohdr rf st info hf (Or.inr hnr)]
      · right; right
        exact ⟨hf, by rw [assembleStep_file_reconcile rf st info hf hne hnr], hnr⟩

/-- C9: when the root's children contain no directory and no qualifying
document, the scanner's list is empty, and the assembler then produces
the empty string (the output file is written unconditionally by `run`
with this empty content). -/
theorem claim9_empty_scan (rf : String → Option String) (dirPath relDir : String)
    (children : List FSEntry)
    (h : ∀ c ∈ children, isDirE c = false
          ∧ ∀ (name : String) (cont : Option String), c = FSEntry.file name cont →
              strEnds (lowerStr name) ".md" = false) :
    findMarkdownRecursive dirPath relDir children = []
    ∧ assemble rf (findMarkdownRecursive dirPath relDir children) = "" := by
  have hnil : findMarkdownRecursive dirPath relDir children = [] := by
    rw [findMarkdown_eq_flatMap]
    refine List.flatMap_eq_nil_iff.mpr ?_
    intro c hc
    obtain ⟨hdir, hfile⟩ := h c ((mem_sortBy _ _ _).mp hc)
    cases c with
    | dir n cs => simp [isDirE] at hdir
    | file n cont =>
      rw [scanChild_file_eq, if_neg]
      rw [hfile n cont rfl]
      simp
    | other n => exact scanChild_other_eq dirPath relDir n
  refine ⟨hnil, ?_⟩
  rw [hnil]
  rfl

/-- Witness for C9: a root containing only a non-markdown file and a
special dirent scans to the empty list and assembles to the empty
string. -/
theorem claim9_empty_scan_witness :
    findMarkdownRecursive "/r" "" [.file "readme.txt" (some "t"), .other "link.md"] = []
    ∧ assemble (fun _ => none)
        (findMarkdownRecursive "/r" "" [.file "readme.txt" (some "t"), .other "link.md"]) = "" := by
  apply claim9_empty_scan
  intro c hc
  rcases List.mem_cons.mp hc with h1 | h1
  · subst h1
    refine ⟨rfl, ?_⟩
    intro name cont heq
    injection heq with hn hcont
    subst hn
    decide
  · rcases List.mem_cons.mp h1 with h2 | h2
    · subst h2
      exact ⟨rfl, fun name cont heq => FSEntry.noConfusion heq⟩
    · simp at h2

/-- C10: a dirent that is neither a directory nor a regular file
contributes no entry and nothing to the output, whatever its name
(".md"-suffixed or not): deleting all such dirents from a directory's
child list leaves both the scanner's list and the assembled document
unchanged. -/
theorem claim10_special_ignored (dirPath relDir : String) (children : List FSEntry) :
    findMarkdownRecursive dirPath relDir children
      = findMarkdownRecursive dirPath relDir (children.filter (fun c => !isOtherE c))
    ∧ ∀ rf : String → Option String,
        assemble rf (findMarkdownRecursive dirPath relDir children)
          = assemble rf (findMarkdownRecursive dirPath relDir
              (children.filter (fun c => !isOtherE c))) := by
  have hmain : findMarkdownRecursive dirPath relDir children
      = findMarkdownRecursive dirPath relDir (children.filter (fun c => !isOtherE c)) := by
    rw [findMarkdown_eq_flatMap, findMarkdown_eq_flatMap]
    unfold sortDirents
    rw [← filter_sortBy direntLe direntLe_total direntLe_trans]
    apply flatMap_filter_of_nil
    intro x hx hxf
    cases x with
    | dir n cs => simp [isOtherE] at hxf
    | file n c => simp [isOtherE] at hxf
    | other n => exact scanChild_other_eq dirPath relDir n
  exact ⟨hmain, fun rf => by rw [hmain]⟩

